import Mathlib

/-!
Verification of the PiFM hyperspectral-image processing code
(`io/util.py`): the ANFATEC parameter-file parser, the hyperspectral
cube / channel-stack builder, the `hyperslice` wavenumber-range
reducer and the `to_2d` flattening helper.

The Python code is shallowly embedded:
* text lines are `List Char`; Python `str.strip`, `str.split(':')`,
  `str.startswith`/`str.endswith` become executable Lean functions;
* Python dicts (insertion ordered, last write wins per key) are
  association lists updated by `dictSet`;
* numpy arrays are total functions `ℕ → ℕ → ℕ → ℚ` bundled with an
  explicit shape (`Arr3`); float values are modelled as rationals;
* `list.index` (which raises `ValueError` when the element is absent)
  becomes the `Option`-valued `pyIndex`;
* the in-place numpy mutation performed by `hyperslice` (the returned
  slice is a view of the cube) is modelled by explicit state passing:
  `hyperslice` returns the result matrix together with the container
  holding the mutated cube;
* file IO is out of the embedding: the parser receives the decoded
  lines of the parameter file, and the cube builder receives the
  already-parsed pixel counts, the wavelength axis and the raw `i4`
  contents of each channel file.
-/

namespace PiFM

/-! ### Python string primitives -/

/-- Characters of a Python string. -/
abbrev Str := List Char

/-- Python `s.startswith(p)`. -/
def strStartsWith : Str → Str → Bool
  | _, [] => true
  | [], _ :: _ => false
  | c :: s, p :: ps => c == p && strStartsWith s ps

/-- Python `s.endswith(p)`. -/
def strEndsWith (s p : Str) : Bool :=
  strStartsWith s.reverse p.reverse

/-- Python `s.strip()`: remove leading and trailing whitespace. -/
def strTrim (s : Str) : Str :=
  ((s.dropWhile Char.isWhitespace).reverse.dropWhile Char.isWhitespace).reverse

/-- Helper for `splitOnColon`: accumulates the current segment (reversed). -/
def splitColonAux : Str → Str → List Str
  | [], acc => [acc.reverse]
  | c :: rest, acc =>
      if c = ':' then acc.reverse :: splitColonAux rest []
      else splitColonAux rest (c :: acc)

/-- Python `s.split(':')`. -/
def splitOnColon (s : Str) : List Str :=
  splitColonAux s []

/-- Python dict update `d[k] = v`: overwrite the entry if the key is
present, else append it, preserving insertion order. -/
def dictSet (d : List (Str × Str)) (k v : Str) : List (Str × Str) :=
  if d.any (fun p => p.1 == k) then
    d.map (fun p => if p.1 == k then (k, v) else p)
  else d ++ [(k, v)]

/-! ### The ANFATEC parameter-file parser (`read_anfatec_params`) -/

/-- Loop state of `read_anfatec_params`: the three result collections,
the current block accumulator `parameters` and the
`inside_description` flag. -/
structure ParseState where
  scan_params : List (Str × Str)
  file_descriptions : List (List (Str × Str))
  spectra_descriptions : List (List (Str × Str))
  parameters : List (Str × Str)
  inside_description : Bool
  deriving Repr, DecidableEq

/-- Initial state of the parser loop. -/
def initState : ParseState :=
  { scan_params := [], file_descriptions := [], spectra_descriptions := []
    parameters := [], inside_description := false }

/-- Body of the `for i, row in enumerate(f)` loop of
`read_anfatec_params`, acting on one raw line. Mirrors the source:
strip the line; skip it when empty or when its first character is
`;`; `File…Begin` and `…SpectrumDescBegin` lines set the flag and
`continue`; `File…End` and `…SpectrumDescEnd` lines close their block
but fall through, so the line is then split on `:` and its first and
last stripped segments are stored as a key/value pair (into
`parameters` when the flag is set, else into `scan_params`). -/
def processLine (st : ParseState) (raw : Str) : ParseState :=
  let row := strTrim raw
  if row = [] then st
  else if row.head? = some ';' then st
  else if strEndsWith row "Begin".toList && strStartsWith row "File".toList then
    { st with inside_description := true }
  else if strEndsWith row "SpectrumDescBegin".toList then
    { st with inside_description := true }
  else
    let st :=
      if strEndsWith row "End".toList && strStartsWith row "File".toList then
        { st with file_descriptions := st.file_descriptions ++ [st.parameters]
                  parameters := []
                  inside_description := false }
      else st
    let st :=
      if strEndsWith row "SpectrumDescEnd".toList then
        { st with spectra_descriptions := st.spectra_descriptions ++ [st.parameters]
                  parameters := [] }
      else st
    let split_row := (splitOnColon row).map strTrim
    let key := split_row.headD []
    let value := split_row.getLastD []
    if st.inside_description then
      { st with parameters := dictSet st.parameters key value }
    else
      { st with scan_params := dictSet st.scan_params key value }

/-- Embedding of `read_anfatec_params`: fold the line-processing loop
over the decoded lines of the file and return
`(scan_params, file_descriptions, spectra_descriptions)`. -/
def read_anfatec_params (lines : List Str) :
    List (Str × Str) × List (List (Str × Str)) × List (List (Str × Str)) :=
  let st := lines.foldl processLine initState
  (st.scan_params, st.file_descriptions, st.spectra_descriptions)

/-! ### Numpy arrays and the hyperspectral container -/

/-- Model of a 3-D numpy array: a shape together with a total
valuation function (entries outside the shape are irrelevant). -/
structure Arr3 where
  shape : ℕ × ℕ × ℕ
  val : ℕ → ℕ → ℕ → ℚ

/-- Python `int(x)` on a float `x`, modelled on `ℚ`: truncation toward
zero (the denominator of a `Rat` is positive, so `Int.tdiv`, which
rounds toward zero, implements it). -/
def truncQ (q : ℚ) : ℤ :=
  Int.tdiv q.num q.den

/-- Python `list.index(v)`: index of the first occurrence, or failure
(`ValueError`, modelled as `none`) when `v` is absent. -/
def pyIndex (l : List ℤ) (v : ℤ) : Option ℕ :=
  if v ∈ l then some (l.indexOf v) else none

/-- Raw material of one channel: its parsed `Caption`, its parsed
`Scale` factor and the `i4` samples of the binary file named by its
`FileName` key. -/
structure RawChannel where
  caption : Str
  scale : ℚ
  data : List ℤ

/-- The container built by `HyperImage.__init__`. -/
structure HyperImage where
  wavelength_data : List ℚ
  channel_names : List Str
  hyper_image : Arr3
  channel_data : Arr3

/-! ### The cube builder (`HyperImage.__init__`) -/

/-- Assignment `hyper_image[j, i, :] = pix` of a whole spectral fiber
(of length `S`) at spatial cell `(j, i)`. -/
def writeFiber (g : ℕ → ℕ → ℕ → ℚ) (j i : ℕ) (S : ℕ) (pix : ℕ → ℚ) :
    ℕ → ℕ → ℕ → ℚ :=
  fun a b k => if a = j ∧ b = i ∧ k < S then pix k else g a b k

/-- Inner loop `for j, pixel in enumerate(np.split(line, x_pixel))` of
the hyperspectral read: row `i` of the binary payload contributes the
fiber `data[(i*X+j)*S : (i*X+j+1)*S]`, scaled, at cell `(j, i)`. -/
def fillFiberRow (X S : ℕ) (scale : ℚ) (data : List ℤ) (i : ℕ)
    (g : ℕ → ℕ → ℕ → ℚ) : ℕ → ℕ → ℕ → ℚ :=
  (List.range X).foldl
    (fun g j => writeFiber g j i S (fun k => scale * ((data.getD ((i * X + j) * S + k) 0 : ℤ) : ℚ)))
    g

/-- Loops of lines 103–106 of the source: distribute the flat `i4`
payload of the first channel over the zero-initialized cube
`np.zeros((x_pixel, y_pixel, S))`, scaled by `pifm_scaling`. -/
def fillGridFun (X Y S : ℕ) (scale : ℚ) (data : List ℤ) : ℕ → ℕ → ℕ → ℚ :=
  (List.range Y).foldl (fun g i => fillFiberRow X S scale data i g)
    (fun _ _ _ => 0)

/-- Assignment `channel_data[j, i, ch] = v` of one scalar entry. -/
def writeCell (g : ℕ → ℕ → ℕ → ℚ) (j i ch : ℕ) (v : ℚ) :
    ℕ → ℕ → ℕ → ℚ :=
  fun a b c => if a = j ∧ b = i ∧ c = ch then v else g a b c

/-- Inner loop of the channel read: row `i` of a single-plane channel
file contributes sample `data[i*X+j]`, scaled, at cell `(j, i, ch)`. -/
def fillCellRow (X : ℕ) (ch : ℕ) (scale : ℚ) (data : List ℤ) (i : ℕ)
    (g : ℕ → ℕ → ℕ → ℚ) : ℕ → ℕ → ℕ → ℚ :=
  (List.range X).foldl
    (fun g j => writeCell g j i ch (scale * ((data.getD (i * X + j) 0 : ℤ) : ℚ)))
    g

/-- Loops of lines 115–117 of the source: one channel of the stack. -/
def fillChannel (X Y : ℕ) (g : ℕ → ℕ → ℕ → ℚ) (ch : ℕ) (scale : ℚ)
    (data : List ℤ) : ℕ → ℕ → ℕ → ℚ :=
  (List.range Y).foldl (fun g i => fillCellRow X ch scale data i g) g

/-- Loop `for ch, channel in enumerate(channels[1:])`, carrying the
explicit channel index `ch`. -/
def stackFrom (X Y : ℕ) (g : ℕ → ℕ → ℕ → ℚ) (ch : ℕ) :
    List RawChannel → ℕ → ℕ → ℕ → ℚ
  | [] => g
  | c :: rest => stackFrom X Y (fillChannel X Y g ch c.scale c.data) (ch + 1) rest

/-- The channel stack `channel_data`, built over
`np.zeros((x_pixel, y_pixel, len(channels[1:])))`. -/
def stackFun (X Y : ℕ) (chans : List RawChannel) : ℕ → ℕ → ℕ → ℚ :=
  stackFrom X Y (fun _ _ _ => 0) 0 chans

/-- Model of `np.rot90(A, k=-1)` on the two spatial axes: the result
has shape `(b, a, s)` for input shape `(a, b, s)` and
`result[i, j, s] = A[a - 1 - j, i, s]`. -/
def rot90cw (A : Arr3) : Arr3 :=
  { shape := (A.shape.2.1, A.shape.1, A.shape.2.2)
    val := fun i j s => A.val (A.shape.1 - 1 - j) i s }

/-- Model of `A[:, ::-1, :]`: mirror the second axis. -/
def flipCols (A : Arr3) : Arr3 :=
  { shape := A.shape
    val := fun i j s => A.val i (A.shape.2.1 - 1 - j) s }

/-- Embedding of `HyperImage.__init__`. Inputs stand for the parsed
scan parameters (`xPixel`, `yPixel` already converted by `int`), the
wavelength axis loaded by `np.loadtxt`, and the channel descriptors
paired with the decoded `i4` contents of the files they name
(`channels.head` being the hyperspectral channel). Construction fails
(`none`) when there is no first channel, or when a `np.split` of a
payload into `y_pixel` lines of `x_pixel` pixels is impossible; the
per-channel fiber length is fixed by the wavelength-axis length `S`
(first channel) or `1` (remaining channels), so success requires the
payload lengths `X*Y*S` and `X*Y`. On success the orientation
normalization `np.rot90(·, k=-1)` followed by `[:, ::-1, :]` is
applied to both arrays, exactly as in lines 120–125 of the source. -/
def buildHyperImage (xPixel yPixel : ℕ) (wavelength_data : List ℚ)
    (channels : List RawChannel) : Option HyperImage :=
  match channels with
  | [] => none
  | ch0 :: rest =>
    let wavenumber_length := wavelength_data.length
    if 0 < xPixel ∧ 0 < yPixel
        ∧ ch0.data.length = xPixel * yPixel * wavenumber_length
        ∧ rest.all (fun c => c.data.length = xPixel * yPixel) then
      let hyper_image : Arr3 :=
        { shape := (xPixel, yPixel, wavenumber_length)
          val := fillGridFun xPixel yPixel wavenumber_length ch0.scale ch0.data }
      let channel_data : Arr3 :=
        { shape := (xPixel, yPixel, rest.length)
          val := stackFun xPixel yPixel rest }
      some { wavelength_data := wavelength_data
             channel_names := rest.map RawChannel.caption
             hyper_image := flipCols (rot90cw hyper_image)
             channel_data := flipCols (rot90cw channel_data) }
    else none

/-! ### The wavenumber-range reducer (`hyperslice`) -/

/-- The 2-D view `hyper_image[r0:r1, c0:c1, k]` of one spectral plane,
materialized as a list-of-lists matrix. -/
def planeWindow (cube : ℕ → ℕ → ℕ → ℚ) (r0 r1 c0 c1 k : ℕ) :
    List (List ℚ) :=
  (List.range (r1 - r0)).map fun i =>
    (List.range (c1 - c0)).map fun j => cube (r0 + i) (c0 + j) k

/-- One iteration `slc += hyper.hyper_image[r0:r1, c0:c1, src]` of the
`hyperslice` loop: `slc` is a view of plane `dst` of the cube, so the
addition writes into the cube, reading the current values. -/
def cubeAddPlane (cube : ℕ → ℕ → ℕ → ℚ) (r0 r1 c0 c1 dst src : ℕ) :
    ℕ → ℕ → ℕ → ℚ :=
  fun r c k =>
    if r0 ≤ r ∧ r < r1 ∧ c0 ≤ c ∧ c < c1 ∧ k = dst then
      cube r c dst + cube r c src
    else cube r c k

/-- The loop `for i in range(span): slc += hyper_image[..., start_index + i]`
(`range` of a non-positive span being empty). -/
def hypersliceLoop (cube : ℕ → ℕ → ℕ → ℚ) (r0 r1 c0 c1 si n : ℕ) :
    ℕ → ℕ → ℕ → ℚ :=
  (List.range n).foldl (fun cb i => cubeAddPlane cb r0 r1 c0 c1 si (si + i)) cube

/-- Embedding of `hyperslice`. Row/column windows default to the full
spatial extent of `channel_data`, as in the source. The wavelength
axis is truncated to integers; `start_index` is the index of `stop`
and `stop_index` the index of `start` (the source swaps them), either
lookup failing (`ValueError`) gives `none`. The returned matrix is the
(post-mutation) view of plane `start_index`, and the returned
container carries the mutated cube. -/
def hyperslice (hyper : HyperImage) (start stop : ℤ)
    (rows cols : Option (ℕ × ℕ)) : Option (List (List ℚ) × HyperImage) :=
  let rows := rows.getD (0, hyper.channel_data.shape.1)
  let cols := cols.getD (0, hyper.channel_data.shape.2.1)
  let wavenumberlist := hyper.wavelength_data.map truncQ
  match pyIndex wavenumberlist stop, pyIndex wavenumberlist start with
  | some start_index, some stop_index =>
    let span : ℤ := (stop_index : ℤ) - (start_index : ℤ)
    let cube := hypersliceLoop hyper.hyper_image.val rows.1 rows.2 cols.1 cols.2
      start_index span.toNat
    some (planeWindow cube rows.1 rows.2 cols.1 cols.2 start_index,
      { hyper with hyper_image := { shape := hyper.hyper_image.shape, val := cube } })
  | _, _ => none

/-! ### The flattening helper (`to_2d`) -/

/-- Body of the `for y in range(yaxis)` loop of `to_2d` at fixed `x`:
increment the counter, then (once per `z`, redundantly, as in the
source's inner `for z in range(zaxis)` loop) assign the whole
laser-power-corrected spectral vector to row `counter`. -/
def to2dStep (m : Arr3) (lp : ℚ) (x : ℕ) (st : ℤ × List (List ℚ))
    (y : ℕ) : ℤ × List (List ℚ) :=
  let zaxis := m.shape.2.2
  let counter : ℤ := st.1 + 1
  let fm := (List.range zaxis).foldl (fun fm _z =>
    fm.set counter.toNat ((List.range zaxis).map fun z => m.val x y z / lp)) st.2
  (counter, fm)

/-- Embedding of `to_2d`: a zero matrix of `xaxis*yaxis` rows of
length `zaxis` is filled row by row, the counter starting at `-1`. -/
def to_2d (spectralmatrix : Arr3) (laserpower : ℚ) : List (List ℚ) :=
  let xaxis := spectralmatrix.shape.1
  let yaxis := spectralmatrix.shape.2.1
  let zaxis := spectralmatrix.shape.2.2
  let featurematrix := List.replicate (xaxis * yaxis) (List.replicate zaxis (0 : ℚ))
  let result := (List.range xaxis).foldl
    (fun st x => (List.range yaxis).foldl (to2dStep spectralmatrix laserpower x) st)
    ((-1 : ℤ), featurematrix)
  result.2

/-! ### Concrete containers used by witnesses and counterexamples -/

/-- Valuation function of a cube given by nested lists `[x][y][s]`. -/
def cubeOfList (l : List (List (List ℚ))) : ℕ → ℕ → ℕ → ℚ :=
  fun r c k => ((l.getD r []).getD c []).getD k 0

/-- A 1×1×3 container whose wavelength axis truncates to
`[300, 305, 310]` and whose spectral planes hold `1`, `10`, `100`. -/
def hyperA : HyperImage :=
  { wavelength_data := [300, 305, 310]
    channel_names := []
    hyper_image := { shape := (1, 1, 3), val := cubeOfList [[[1, 10, 100]]] }
    channel_data := { shape := (1, 1, 0), val := cubeOfList [] } }

/-- A 1×1×2 container with wavelength axis `[20, 10]` and an all-zero
cube. -/
def hyperB : HyperImage :=
  { wavelength_data := [20, 10]
    channel_names := []
    hyper_image := { shape := (1, 1, 2), val := cubeOfList [[[0, 0]]] }
    channel_data := { shape := (1, 1, 0), val := cubeOfList [] } }

/-- A 1×1×2 container with wavelength axis `[20, 10]` and planes `1`,
`5`. -/
def hyperC : HyperImage :=
  { wavelength_data := [20, 10]
    channel_names := []
    hyper_image := { shape := (1, 1, 2), val := cubeOfList [[[1, 5]]] }
    channel_data := { shape := (1, 1, 0), val := cubeOfList [] } }

/-- The container `hyperC` after one `hyperslice(c, 10, 20)` call: the
loop has added plane `0` to itself inside the default window. -/
def hyperC' : HyperImage :=
  { hyperC with
      hyper_image :=
        { shape := hyperC.hyper_image.shape
          val := hypersliceLoop hyperC.hyper_image.val 0 1 0 1 0 1 } }

/-- The container built from a 1×2 scan with a single (hyperspectral)
channel of scale `1`, payload `[7, 8]` and wavelength axis `[5]`. -/
def builtA : HyperImage :=
  { wavelength_data := [5]
    channel_names := []
    hyper_image := flipCols (rot90cw { shape := (1, 2, 1), val := fillGridFun 1 2 1 1 [7, 8] })
    channel_data := flipCols (rot90cw { shape := (1, 2, 0), val := stackFun 1 2 [] }) }

/-- A concrete `(2, 2, 3)` cube with entries `1 … 12`. -/
def cubeD : Arr3 :=
  { shape := (2, 2, 3)
    val := cubeOfList [[[1, 2, 3], [4, 5, 6]], [[7, 8, 9], [10, 11, 12]]] }

/-! ### String lemmas -/

lemma strStartsWith_head {s p : Str} {a : Char}
    (h : strStartsWith s (a :: p) = true) : s.head? = some a := by
  cases s with
  | nil => simp [strStartsWith] at h
  | cons c cs =>
    simp only [strStartsWith, Bool.and_eq_true, beq_iff_eq] at h
    simp [h.1]

lemma head?_of_strEndsWith {s p : Str} {a : Char} {q : Str}
    (hp : p.reverse = a :: q) (h : strEndsWith s p = true) :
    s.reverse.head? = some a := by
  rw [strEndsWith, hp] at h
  exact strStartsWith_head h

/-- A line ending in `End` does not end in `Begin`. -/
lemma strEndsWith_End_not_Begin {s : Str}
    (h : strEndsWith s "End".toList = true) :
    strEndsWith s "Begin".toList = false := by
  cases hB : strEndsWith s "Begin".toList with
  | false => rfl
  | true =>
    have h1 := head?_of_strEndsWith (p := "End".toList) rfl h
    have h2 := head?_of_strEndsWith (p := "Begin".toList) rfl hB
    rw [h1] at h2
    simp at h2

/-- A line ending in `End` does not end in `SpectrumDescBegin`. -/
lemma strEndsWith_End_not_SDBegin {s : Str}
    (h : strEndsWith s "End".toList = true) :
    strEndsWith s "SpectrumDescBegin".toList = false := by
  cases hB : strEndsWith s "SpectrumDescBegin".toList with
  | false => rfl
  | true =>
    have h1 := head?_of_strEndsWith (p := "End".toList) rfl h
    have h2 := head?_of_strEndsWith (p := "SpectrumDescBegin".toList) rfl hB
    rw [h1] at h2
    simp at h2

lemma head?_of_strStartsWith_File {s : Str}
    (h : strStartsWith s "File".toList = true) : s.head? = some 'F' :=
  strStartsWith_head h

lemma head?_dropWhile_eq_false (p : α → Bool) (l : List α) {a : α}
    (h : (l.dropWhile p).head? = some a) : p a = false := by
  have hd := List.head?_dropWhile_not p l
  rw [h] at hd
  exact hd

lemma dropWhile_head_not (p : α → Bool) (l : List α)
    (h : ∀ a, l.head? = some a → p a = false) : l.dropWhile p = l := by
  cases l with
  | nil => rfl
  | cons c cs =>
    have := h c rfl
    simp [List.dropWhile_cons, this]

lemma getLast?_strTrim_not_ws {s : Str} {a : Char}
    (h : (strTrim s).getLast? = some a) : a.isWhitespace = false := by
  rw [strTrim, List.getLast?_reverse] at h
  exact head?_dropWhile_eq_false _ _ h

lemma head?_strTrim_not_ws {s : Str} {a : Char}
    (h : (strTrim s).head? = some a) : a.isWhitespace = false := by
  rw [strTrim, List.head?_reverse] at h
  have h2 : ((s.dropWhile Char.isWhitespace).reverse).getLast? = some a := by
    conv_lhs =>
      rw [← List.takeWhile_append_dropWhile (p := Char.isWhitespace)
        (l := (s.dropWhile Char.isWhitespace).reverse)]
    rw [List.getLast?_append, h]
    rfl
  rw [List.getLast?_reverse] at h2
  exact head?_dropWhile_eq_false _ _ h2

lemma strTrim_of_trimmed {r : Str}
    (h1 : ∀ a, r.head? = some a → a.isWhitespace = false)
    (h2 : ∀ a, r.getLast? = some a → a.isWhitespace = false) :
    strTrim r = r := by
  have e1 : r.dropWhile Char.isWhitespace = r := dropWhile_head_not _ _ h1
  have e2 : r.reverse.dropWhile Char.isWhitespace = r.reverse := by
    refine dropWhile_head_not _ _ (fun a ha => ?_)
    rw [List.head?_reverse] at ha
    exact h2 a ha
  rw [strTrim, e1, e2, List.reverse_reverse]

/-- Python `strip` is idempotent. -/
lemma strTrim_strTrim (s : Str) : strTrim (strTrim s) = strTrim s :=
  strTrim_of_trimmed (fun _ ha => head?_strTrim_not_ws ha)
    (fun _ ha => getLast?_strTrim_not_ws ha)

/-! ### Lemmas about `splitOnColon` -/

lemma splitColonAux_ne_nil (s acc : Str) : splitColonAux s acc ≠ [] := by
  induction s generalizing acc with
  | nil => simp [splitColonAux]
  | cons c cs ih =>
    rw [splitColonAux]
    split
    · simp
    · exact ih _

lemma headD_splitColonAux (s acc : Str) :
    (splitColonAux s acc).headD [] =
      acc.reverse ++ s.takeWhile (fun c => !(c == ':')) := by
  induction s generalizing acc with
  | nil => simp [splitColonAux]
  | cons c cs ih =>
    by_cases hc : c = ':'
    · subst hc
      simp [splitColonAux, List.takeWhile_cons]
    · rw [splitColonAux, if_neg hc, ih, List.takeWhile_cons]
      simp [hc]

lemma takeWhile_append_stop {p : α → Bool} {l₁ l₂ : List α}
    (h : ∃ a ∈ l₁, p a = false) :
    (l₁ ++ l₂).takeWhile p = l₁.takeWhile p := by
  induction l₁ with
  | nil =>
    obtain ⟨a, ha, _⟩ := h
    simp at ha
  | cons c cs ih =>
    by_cases hc : p c
    · obtain ⟨a, ha, hpa⟩ := h
      rcases List.mem_cons.mp ha with rfl | ha'
      · rw [hpa] at hc; cases hc
      · simp only [List.cons_append, List.takeWhile_cons, hc]
        rw [ih ⟨a, ha', hpa⟩]
    · simp [List.takeWhile_cons, hc]

lemma getLast?_splitColonAux (s acc : Str) :
    (splitColonAux s acc).getLast? =
      some (if ':' ∈ s then (s.reverse.takeWhile (fun c => !(c == ':'))).reverse
            else acc.reverse ++ s) := by
  induction s generalizing acc with
  | nil => simp [splitColonAux]
  | cons c cs ih =>
    by_cases hc : c = ':'
    · subst hc
      rw [splitColonAux, if_pos rfl,
        show acc.reverse :: splitColonAux cs [] = [acc.reverse] ++ splitColonAux cs [] from rfl,
        List.getLast?_append, ih, Option.or_some,
        show ((':' : Char) :: cs).reverse = cs.reverse ++ [':'] by simp]
      by_cases hm : ':' ∈ cs
      · have hstop : (cs.reverse ++ [':']).takeWhile (fun c => !(c == ':')) =
            cs.reverse.takeWhile (fun c => !(c == ':')) :=
          takeWhile_append_stop ⟨':', by simp [hm], rfl⟩
        simp [hm, hstop]
      · have hall : ∀ a ∈ cs.reverse, (fun c => !(c == ':')) a = true := by
          intro a ha
          rw [List.mem_reverse] at ha
          simp only [Bool.not_eq_true', beq_eq_false_iff_ne]
          exact fun e => hm (e ▸ ha)
        rw [List.takeWhile_append_of_pos hall]
        simp [hm]
    · rw [splitColonAux, if_neg hc, ih,
        show (c :: cs).reverse = cs.reverse ++ [c] by simp]
      have hmem : (':' ∈ c :: cs) ↔ (':' ∈ cs) := by
        simp only [List.mem_cons]
        exact or_iff_right (fun e => hc e.symm)
      by_cases hm : ':' ∈ cs
      · have hstop : (cs.reverse ++ [c]).takeWhile (fun c => !(c == ':')) =
            cs.reverse.takeWhile (fun c => !(c == ':')) :=
          takeWhile_append_stop ⟨':', by simp [hm], rfl⟩
        simp [hm, hmem, hstop]
      · simp [hm, hmem]

lemma splitOnColon_ne_nil (s : Str) : splitOnColon s ≠ [] :=
  splitColonAux_ne_nil s []

lemma headD_splitOnColon (s : Str) :
    (splitOnColon s).headD [] = s.takeWhile (fun c => !(c == ':')) := by
  simpa using headD_splitColonAux s []

lemma getLast?_splitOnColon (s : Str) :
    (splitOnColon s).getLast? =
      some (if ':' ∈ s then (s.reverse.takeWhile (fun c => !(c == ':'))).reverse
            else s) := by
  simpa using getLast?_splitColonAux s []

lemma splitColonAux_no_colon {s : Str} (acc : Str) (h : ':' ∉ s) :
    splitColonAux s acc = [acc.reverse ++ s] := by
  induction s generalizing acc with
  | nil => simp [splitColonAux]
  | cons c cs ih =>
    have hc : ¬ c = ':' := fun e => h (by rw [e]; exact List.mem_cons_self _ _)
    rw [splitColonAux, if_neg hc, ih _ (fun hm => h (List.mem_cons_of_mem _ hm))]
    simp

lemma splitOnColon_no_colon {s : Str} (h : ':' ∉ s) : splitOnColon s = [s] := by
  simpa using splitColonAux_no_colon [] h

lemma headD_map_strTrim {l : List Str} (h : l ≠ []) :
    (l.map strTrim).headD [] = strTrim (l.headD []) := by
  cases l with
  | nil => exact absurd rfl h
  | cons x xs => rfl

/-! ### Claim C3 -/

/-- C3 (amended): a non-empty, non-comment, non-structural parameter
line with no `:` character does not make the parser fail with
`MalformedLine`; instead the whole (trimmed) line is stored as both the
key and the value of a pair, going into the block accumulator when the
`inside_description` flag is set and into the global scan-parameters
mapping otherwise. -/
theorem C3_no_colon_line_is_stored (st : ParseState) (raw row : Str)
    (hr : strTrim raw = row)
    (h0 : row ≠ [])
    (h1 : row.head? ≠ some ';')
    (h2 : (strEndsWith row "Begin".toList && strStartsWith row "File".toList) = false)
    (h3 : strEndsWith row "SpectrumDescBegin".toList = false)
    (h4 : (strEndsWith row "End".toList && strStartsWith row "File".toList) = false)
    (h5 : strEndsWith row "SpectrumDescEnd".toList = false)
    (h6 : ':' ∉ row) :
    processLine st raw =
      if st.inside_description then
        { st with parameters := dictSet st.parameters row row }
      else
        { st with scan_params := dictSet st.scan_params row row } := by
  have htrim : strTrim row = row := hr ▸ strTrim_strTrim raw
  simp only [processLine, hr]
  rw [if_neg h0, if_neg h1, h2, h3, h4, h5]
  simp only [Bool.false_eq_true, if_false]
  rw [splitOnColon_no_colon h6]
  simp [htrim]

/-- C3, counterexample to the claim as stated: on the colon-free line
`foo` the parser does not fail; it returns the complete scan-parameters
mapping, holding `foo` as both key and value. -/
theorem C3_counterexample :
    read_anfatec_params ["foo".toList] =
      ([("foo".toList, "foo".toList)], [], []) := by decide

/-- C3, witness: the amended theorem applied to the line `foo` in the
initial parser state. -/
theorem C3_witness :
    strTrim "foo".toList = "foo".toList ∧
    processLine initState "foo".toList =
      (if initState.inside_description then
        { initState with
            parameters := dictSet initState.parameters "foo".toList "foo".toList }
      else
        { initState with
            scan_params := dictSet initState.scan_params "foo".toList "foo".toList }) :=
  ⟨by decide,
   C3_no_colon_line_is_stored initState "foo".toList "foo".toList (by decide)
     (by decide) (by decide) (by decide) (by decide) (by decide) (by decide)
     (by decide)⟩

/-! ### Claim C9 -/

/-- C9: on every non-skipped, non-structural line containing at least
one `:`, the parser stores exactly one key/value pair: the key is the
whitespace-trimmed text before the first colon, the value the
whitespace-trimmed text after the last colon; the pair goes into the
block accumulator when the `inside_description` flag is set and into
the global scan-parameters mapping otherwise. -/
theorem C9_key_value_pair (st : ParseState) (raw row : Str)
    (hr : strTrim raw = row)
    (h0 : row ≠ [])
    (h1 : row.head? ≠ some ';')
    (h2 : (strEndsWith row "Begin".toList && strStartsWith row "File".toList) = false)
    (h3 : strEndsWith row "SpectrumDescBegin".toList = false)
    (h4 : (strEndsWith row "End".toList && strStartsWith row "File".toList) = false)
    (h5 : strEndsWith row "SpectrumDescEnd".toList = false)
    (h6 : ':' ∈ row) :
    processLine st raw =
      (let key := strTrim (row.takeWhile (fun c => !(c == ':')))
       let value := strTrim ((row.reverse.takeWhile (fun c => !(c == ':'))).reverse)
       if st.inside_description then
         { st with parameters := dictSet st.parameters key value }
       else
         { st with scan_params := dictSet st.scan_params key value }) := by
  have hkey : ((splitOnColon row).map strTrim).headD [] =
      strTrim (row.takeWhile (fun c => !(c == ':'))) := by
    rw [headD_map_strTrim (splitOnColon_ne_nil row), headD_splitOnColon]
  have hval : ((splitOnColon row).map strTrim).getLastD [] =
      strTrim ((row.reverse.takeWhile (fun c => !(c == ':'))).reverse) := by
    rw [List.getLastD_eq_getLast?, List.getLast?_map, getLast?_splitOnColon,
      if_pos h6]
    rfl
  simp only [processLine, hr]
  rw [if_neg h0, if_neg h1, h2, h3, h4, h5]
  simp only [Bool.false_eq_true, if_false]
  rw [hkey, hval]

/-- C9, witness: the theorem applied to the line `xPixel : 256` in the
initial parser state. -/
theorem C9_witness :
    (':' ∈ "xPixel : 256".toList) ∧
    processLine initState "xPixel : 256".toList =
      (let key := strTrim (("xPixel : 256".toList).takeWhile (fun c => !(c == ':')))
       let value := strTrim ((("xPixel : 256".toList).reverse.takeWhile
         (fun c => !(c == ':'))).reverse)
       if initState.inside_description then
         { initState with parameters := dictSet initState.parameters key value }
       else
         { initState with scan_params := dictSet initState.scan_params key value }) :=
  ⟨by decide,
   C9_key_value_pair initState "xPixel : 256".toList "xPixel : 256".toList
     (by decide) (by decide) (by decide) (by decide) (by decide) (by decide)
     (by decide) (by decide)⟩

/-! ### Claim C5 -/

/-- C5 (amended): a line that starts with `File` and ends with `End`
(and is not also a `SpectrumDescEnd` line) closes the channel block:
the accumulator is appended to the channel-descriptor sequence, then
reset, and the flag is cleared — but the key/value pair parsed from the
closing line itself is NOT included in the appended descriptor: because
the flag is cleared before the line is split, that pair is stored into
the global scan-parameters mapping instead. -/
theorem C5_file_end_closes_block (st : ParseState) (raw row : Str)
    (hr : strTrim raw = row)
    (hFile : strStartsWith row "File".toList = true)
    (hEnd : strEndsWith row "End".toList = true)
    (hSDE : strEndsWith row "SpectrumDescEnd".toList = false) :
    processLine st raw =
      { st with
          file_descriptions := st.file_descriptions ++ [st.parameters]
          parameters := []
          inside_description := false
          scan_params := dictSet st.scan_params
            (((splitOnColon row).map strTrim).headD [])
            (((splitOnColon row).map strTrim).getLastD []) } := by
  have hhead : row.head? = some 'F' := head?_of_strStartsWith_File hFile
  have h0 : row ≠ [] := by
    intro e
    rw [e] at hhead
    simp at hhead
  have h1 : row.head? ≠ some ';' := by
    rw [hhead]
    simp
  have hB : (strEndsWith row "Begin".toList && strStartsWith row "File".toList) = false := by
    rw [strEndsWith_End_not_Begin hEnd, Bool.false_and]
  have hEF : (strEndsWith row "End".toList && strStartsWith row "File".toList) = true := by
    rw [hEnd, hFile]; rfl
  simp only [processLine, hr]
  rw [if_neg h0, if_neg h1, hB, strEndsWith_End_not_SDBegin hEnd, hEF, hSDE]
  simp

/-- C5, counterexample to the claim as stated: parsing the block
`FileDescBegin` / `Caption: PiFM` / `FileDescEnd`, the appended channel
descriptor holds only the `Caption` pair — the pair parsed from the
closing line (`FileDescEnd`/`FileDescEnd`) is not part of it; it ends
up in the scan-parameters mapping. -/
theorem C5_counterexample :
    read_anfatec_params
        ["FileDescBegin".toList, "Caption: PiFM".toList, "FileDescEnd".toList] =
      ([("FileDescEnd".toList, "FileDescEnd".toList)],
       [[("Caption".toList, "PiFM".toList)]], []) ∧
    ("FileDescEnd".toList, "FileDescEnd".toList) ∉
      [("Caption".toList, "PiFM".toList)] := by decide

/-- C5, witness: the amended theorem applied to the closing line
`FileDescEnd` in a parser state that is inside a channel block with one
accumulated pair. -/
theorem C5_witness :
    strStartsWith "FileDescEnd".toList "File".toList = true ∧
    processLine
        { scan_params := [], file_descriptions := [], spectra_descriptions := []
          parameters := [("Caption".toList, "PiFM".toList)]
          inside_description := true } "FileDescEnd".toList =
      { scan_params := dictSet []
          ((("FileDescEnd".toList |> splitOnColon).map strTrim).headD [])
          ((("FileDescEnd".toList |> splitOnColon).map strTrim).getLastD [])
        file_descriptions := [[("Caption".toList, "PiFM".toList)]]
        spectra_descriptions := []
        parameters := []
        inside_description := false } :=
  ⟨by decide,
   C5_file_end_closes_block
     { scan_params := [], file_descriptions := [], spectra_descriptions := []
       parameters := [("Caption".toList, "PiFM".toList)]
       inside_description := true }
     "FileDescEnd".toList "FileDescEnd".toList (by decide) (by decide) (by decide)
     (by decide)⟩

/-! ### Lemmas about `hyperslice` -/

lemma pyIndex_of_mem {l : List ℤ} {v : ℤ} (h : v ∈ l) :
    pyIndex l v = some (l.indexOf v) := by
  rw [pyIndex, if_pos h]

lemma hyperslice_some (hyper : HyperImage) (start stop : ℤ)
    (rows cols : Option (ℕ × ℕ)) {si pi : ℕ}
    (h1 : pyIndex (hyper.wavelength_data.map truncQ) stop = some si)
    (h2 : pyIndex (hyper.wavelength_data.map truncQ) start = some pi) :
    hyperslice hyper start stop rows cols =
      some (planeWindow
          (hypersliceLoop hyper.hyper_image.val
            (rows.getD (0, hyper.channel_data.shape.1)).1
            (rows.getD (0, hyper.channel_data.shape.1)).2
            (cols.getD (0, hyper.channel_data.shape.2.1)).1
            (cols.getD (0, hyper.channel_data.shape.2.1)).2 si (pi - si))
          (rows.getD (0, hyper.channel_data.shape.1)).1
          (rows.getD (0, hyper.channel_data.shape.1)).2
          (cols.getD (0, hyper.channel_data.shape.2.1)).1
          (cols.getD (0, hyper.channel_data.shape.2.1)).2 si,
        { hyper with
            hyper_image :=
              { shape := hyper.hyper_image.shape
                val := hypersliceLoop hyper.hyper_image.val
                  (rows.getD (0, hyper.channel_data.shape.1)).1
                  (rows.getD (0, hyper.channel_data.shape.1)).2
                  (cols.getD (0, hyper.channel_data.shape.2.1)).1
                  (cols.getD (0, hyper.channel_data.shape.2.1)).2 si (pi - si) } }) := by
  rw [hyperslice, h1, h2]
  dsimp only
  rw [Int.toNat_sub]

lemma hyperslice_none_iff (hyper : HyperImage) (start stop : ℤ)
    (rows cols : Option (ℕ × ℕ)) :
    hyperslice hyper start stop rows cols = none ↔
      stop ∉ hyper.wavelength_data.map truncQ ∨
      start ∉ hyper.wavelength_data.map truncQ := by
  rw [hyperslice]
  by_cases h1 : stop ∈ hyper.wavelength_data.map truncQ <;>
    by_cases h2 : start ∈ hyper.wavelength_data.map truncQ <;>
      simp [pyIndex, h1, h2]

lemma hypersliceLoop_zero (cube : ℕ → ℕ → ℕ → ℚ) (r0 r1 c0 c1 si : ℕ) :
    hypersliceLoop cube r0 r1 c0 c1 si 0 = cube := rfl

lemma hypersliceLoop_succ (cube : ℕ → ℕ → ℕ → ℚ) (r0 r1 c0 c1 si n : ℕ) :
    hypersliceLoop cube r0 r1 c0 c1 si (n + 1) =
      cubeAddPlane (hypersliceLoop cube r0 r1 c0 c1 si n) r0 r1 c0 c1 si (si + n) := by
  rw [hypersliceLoop, hypersliceLoop, List.range_succ, List.foldl_append]
  rfl

/-- The `hyperslice` loop touches nothing outside the selected window
of plane `si`. -/
lemma hypersliceLoop_off_target (cube : ℕ → ℕ → ℕ → ℚ)
    (r0 r1 c0 c1 si n r c k : ℕ)
    (h : k ≠ si ∨ r < r0 ∨ r1 ≤ r ∨ c < c0 ∨ c1 ≤ c) :
    hypersliceLoop cube r0 r1 c0 c1 si n r c k = cube r c k := by
  induction n with
  | zero => rfl
  | succ m ih =>
    rw [hypersliceLoop_succ]
    simp only [cubeAddPlane]
    have hcond : ¬(r0 ≤ r ∧ r < r1 ∧ c0 ≤ c ∧ c < c1 ∧ k = si) := by
      intro hc
      rcases h with h | h | h | h | h <;> omega
    rw [if_neg hcond]
    exact ih

lemma sum_range_map_succ (f : ℕ → ℚ) (n : ℕ) :
    ((List.range (n + 1)).map f).sum = ((List.range n).map f).sum + f n := by
  rw [List.range_succ, List.map_append, List.sum_append]
  simp

/-- Inside the window, the `hyperslice` loop accumulates, into plane
`si`, TWICE the original plane `si` (the first iteration adds the
aliased view to itself) plus the planes `si+1 … si+n-1`; plane `si+n`
is never added. -/
lemma hypersliceLoop_target (cube : ℕ → ℕ → ℕ → ℚ) (r0 r1 c0 c1 si n r c : ℕ)
    (hr0 : r0 ≤ r) (hr1 : r < r1) (hc0 : c0 ≤ c) (hc1 : c < c1) (hn : 1 ≤ n) :
    hypersliceLoop cube r0 r1 c0 c1 si n r c si =
      2 * cube r c si +
        ((List.range (n - 1)).map (fun i => cube r c (si + 1 + i))).sum := by
  induction n with
  | zero => omega
  | succ m ih =>
    rw [hypersliceLoop_succ]
    simp only [cubeAddPlane]
    rw [if_pos ⟨hr0, hr1, hc0, hc1, trivial⟩]
    rcases Nat.eq_zero_or_pos m with hm | hm
    · subst hm
      rw [hypersliceLoop_zero]
      simp
      ring
    · have hm' : m - 1 + 1 = m := by omega
      rw [ih hm,
        hypersliceLoop_off_target cube r0 r1 c0 c1 si m r c (si + m)
          (Or.inl (by omega)),
        Nat.succ_sub_one]
      conv_rhs => rw [← hm', sum_range_map_succ]
      have harg : si + 1 + (m - 1) = si + m := by omega
      rw [harg]
      ring

/-- Entry `(i, j)` of the materialized window of a plane. -/
lemma planeWindow_getD (cube : ℕ → ℕ → ℕ → ℚ) (r0 r1 c0 c1 k : ℕ) {i j : ℕ}
    (hi : i < r1 - r0) (hj : j < c1 - c0) :
    ((planeWindow cube r0 r1 c0 c1 k).getD i []).getD j 0 =
      cube (r0 + i) (c0 + j) k := by
  simp only [planeWindow, List.getD_eq_getElem?_getD, List.getElem?_map,
    List.getElem?_range hi, List.getElem?_range hj, Option.map_some',
    Option.getD_some]

/-! ### Claim C7 -/

/-- C7: for a wavenumber `w` present in the integer-truncated
wavelength axis, `hyperslice` with `start = stop = w` returns exactly
the single spectral plane at the first occurrence of `w`, over the
selected spatial window, read directly from the (unmutated) cube; the
container is returned unchanged. -/
theorem C7_hyperslice_single_plane (hyper : HyperImage) (w : ℤ)
    (rows cols : Option (ℕ × ℕ))
    (hw : w ∈ hyper.wavelength_data.map truncQ) :
    hyperslice hyper w w rows cols =
      some (planeWindow hyper.hyper_image.val
        (rows.getD (0, hyper.channel_data.shape.1)).1
        (rows.getD (0, hyper.channel_data.shape.1)).2
        (cols.getD (0, hyper.channel_data.shape.2.1)).1
        (cols.getD (0, hyper.channel_data.shape.2.1)).2
        ((hyper.wavelength_data.map truncQ).indexOf w), hyper) := by
  rw [hyperslice_some hyper w w rows cols (pyIndex_of_mem hw) (pyIndex_of_mem hw),
    Nat.sub_self, hypersliceLoop_zero]

/-- C7, witness: on the container `hyperA`, `hyperslice` at
`start = stop = 305` returns the single middle plane. -/
theorem C7_witness :
    ((305 : ℤ) ∈ hyperA.wavelength_data.map truncQ) ∧
    hyperslice hyperA 305 305 none none =
      some (planeWindow hyperA.hyper_image.val
        ((none : Option (ℕ × ℕ)).getD (0, hyperA.channel_data.shape.1)).1
        ((none : Option (ℕ × ℕ)).getD (0, hyperA.channel_data.shape.1)).2
        ((none : Option (ℕ × ℕ)).getD (0, hyperA.channel_data.shape.2.1)).1
        ((none : Option (ℕ × ℕ)).getD (0, hyperA.channel_data.shape.2.1)).2
        ((hyperA.wavelength_data.map truncQ).indexOf 305), hyperA) :=
  ⟨by decide, C7_hyperslice_single_plane hyperA 305 none none (by decide)⟩

/-! ### Claim C6 -/

/-- C6 (amended): `hyperslice` fails (the `ValueError` of `list.index`,
the code's form of `WavenumberNotFound`) exactly when the start or the
stop wavenumber is absent from the integer-truncated axis; but when
both endpoints are present and the resolved span is zero or negative
no `EmptyRange` error is raised: the call succeeds and returns the
single (unmutated) plane at the stop endpoint's index. -/
theorem C6_not_found_but_no_empty_range (hyper : HyperImage)
    (start stop : ℤ) (rows cols : Option (ℕ × ℕ)) :
    (hyperslice hyper start stop rows cols = none ↔
      stop ∉ hyper.wavelength_data.map truncQ ∨
      start ∉ hyper.wavelength_data.map truncQ) ∧
    (∀ si pi : ℕ,
      pyIndex (hyper.wavelength_data.map truncQ) stop = some si →
      pyIndex (hyper.wavelength_data.map truncQ) start = some pi →
      pi ≤ si →
      hyperslice hyper start stop rows cols =
        some (planeWindow hyper.hyper_image.val
          (rows.getD (0, hyper.channel_data.shape.1)).1
          (rows.getD (0, hyper.channel_data.shape.1)).2
          (cols.getD (0, hyper.channel_data.shape.2.1)).1
          (cols.getD (0, hyper.channel_data.shape.2.1)).2 si, hyper)) := by
  refine ⟨hyperslice_none_iff hyper start stop rows cols, fun si pi h1 h2 hle => ?_⟩
  rw [hyperslice_some hyper start stop rows cols h1 h2,
    Nat.sub_eq_zero_of_le hle, hypersliceLoop_zero]

/-- C6, counterexample to the claim as stated: on `hyperA` both `300`
and `310` are present in the truncated axis and the resolved span
`index(300) - index(310)` is negative, yet `hyperslice` does not fail
with `EmptyRange` — it succeeds and returns the single plane at
`index(310)`. -/
theorem C6_counterexample :
    ((300 : ℤ) ∈ hyperA.wavelength_data.map truncQ) ∧
    ((310 : ℤ) ∈ hyperA.wavelength_data.map truncQ) ∧
    (hyperA.wavelength_data.map truncQ).indexOf (300 : ℤ) <
      (hyperA.wavelength_data.map truncQ).indexOf (310 : ℤ) ∧
    (hyperslice hyperA 300 310 none none).map Prod.fst = some [[100]] := by
  decide

/-- C6, witness: on `hyperA`, the lookup `311` fails, and the
present-endpoints negative-span call `(start, stop) = (305, 310)`
succeeds with the single plane at `index(310)`. -/
theorem C6_witness :
    hyperslice hyperA 311 305 none none = none ∧
    hyperslice hyperA 305 310 none none =
      some (planeWindow hyperA.hyper_image.val
        ((none : Option (ℕ × ℕ)).getD (0, hyperA.channel_data.shape.1)).1
        ((none : Option (ℕ × ℕ)).getD (0, hyperA.channel_data.shape.1)).2
        ((none : Option (ℕ × ℕ)).getD (0, hyperA.channel_data.shape.2.1)).1
        ((none : Option (ℕ × ℕ)).getD (0, hyperA.channel_data.shape.2.1)).2 2,
        hyperA) :=
  ⟨(C6_not_found_but_no_empty_range hyperA 311 305 none none).1.mpr
      (Or.inr (by decide)),
   (C6_not_found_but_no_empty_range hyperA 305 310 none none).2 2 1
      (by decide) (by decide) (by decide)⟩

/-! ### Claim C1 -/

/-- C1: the claim (and the function's own docstring) ask for the
inclusive sum of the planes between the two resolved indices, with
`hyperslice(c, 300, 310)` and `hyperslice(c, 310, 300)` both summing
all three planes of a `[300, 305, 310]` axis. The code does neither:
on `hyperA` (planes `1`, `10`, `100`) the call `(300, 310)` resolves a
negative span and returns only plane `[[100]]`, and the call
`(310, 300)` returns `[[12]]` — twice the first plane plus the middle
one, the last plane never added — instead of `[[111]]`. -/
theorem C1_hyperslice_is_not_an_inclusive_sum :
    (hyperslice hyperA 300 310 none none).map Prod.fst = some [[100]] ∧
    (hyperslice hyperA 310 300 none none).map Prod.fst = some [[12]] ∧
    (100 : ℚ) ≠ 1 + 10 + 100 ∧ (12 : ℚ) ≠ 1 + 10 + 100 := by
  refine ⟨by decide, ?_, by norm_num, by norm_num⟩
  simp [hyperslice, hyperA, pyIndex, truncQ, hypersliceLoop, cubeAddPlane,
    planeWindow, cubeOfList, List.range_succ]
  norm_num

/-! ### Claim C2 -/

/-- C2 (amended): when the resolved span `pi - si` (index of the
numeric start endpoint minus index of the numeric stop endpoint) is
positive, the returned matrix is a view of the mutated cube at plane
`si` (the stop endpoint's index): the in-place accumulation rewrites
that plane, inside the window, to twice its original value plus the
planes strictly between `si` and `pi` exclusive; every other entry is
untouched. Whenever the original plane `si` plus those intermediate
planes is nonzero at a window position, a second identical call on the
returned container yields a different result (on an all-zero cube the
cube and the repeated result are unchanged, so the claim's unqualified
"is not left unchanged" fails). -/
theorem C2_hyperslice_aliasing_mutation (hyper : HyperImage)
    (start stop : ℤ) (rows cols : Option (ℕ × ℕ)) (si pi r0 r1 c0 c1 : ℕ)
    (h1 : pyIndex (hyper.wavelength_data.map truncQ) stop = some si)
    (h2 : pyIndex (hyper.wavelength_data.map truncQ) start = some pi)
    (hspan : si < pi)
    (hrows : rows.getD (0, hyper.channel_data.shape.1) = (r0, r1))
    (hcols : cols.getD (0, hyper.channel_data.shape.2.1) = (c0, c1))
    (res : List (List ℚ)) (hyper' : HyperImage)
    (heq : hyperslice hyper start stop rows cols = some (res, hyper')) :
    (res = planeWindow hyper'.hyper_image.val r0 r1 c0 c1 si) ∧
    (∀ r c, r0 ≤ r → r < r1 → c0 ≤ c → c < c1 →
      hyper'.hyper_image.val r c si =
        2 * hyper.hyper_image.val r c si +
          ((List.range (pi - si - 1)).map
            (fun i => hyper.hyper_image.val r c (si + 1 + i))).sum) ∧
    (∀ r c k, (k ≠ si ∨ r < r0 ∨ r1 ≤ r ∨ c < c0 ∨ c1 ≤ c) →
      hyper'.hyper_image.val r c k = hyper.hyper_image.val r c k) ∧
    (∀ r c, r0 ≤ r → r < r1 → c0 ≤ c → c < c1 →
      hyper.hyper_image.val r c si +
        ((List.range (pi - si - 1)).map
          (fun i => hyper.hyper_image.val r c (si + 1 + i))).sum ≠ 0 →
      ∀ res2 hyper'',
        hyperslice hyper' start stop rows cols = some (res2, hyper'') →
        res2 ≠ res) := by
  have hun := hyperslice_some hyper start stop rows cols h1 h2
  rw [hrows, hcols] at hun
  dsimp only at hun
  have key := heq.symm.trans hun
  rw [Option.some.injEq, Prod.mk.injEq] at key
  obtain ⟨hres, hh'⟩ := key
  have hv : hyper'.hyper_image.val =
      hypersliceLoop hyper.hyper_image.val r0 r1 c0 c1 si (pi - si) := by
    rw [hh']
  have hn1 : 1 ≤ pi - si := by omega
  refine ⟨by rw [hres, hv], ?_, ?_, ?_⟩
  · intro r c hr0 hr1 hc0 hc1
    rw [hv]
    exact hypersliceLoop_target _ r0 r1 c0 c1 si (pi - si) r c hr0 hr1 hc0 hc1 hn1
  · intro r c k hk
    rw [hv]
    exact hypersliceLoop_off_target _ r0 r1 c0 c1 si (pi - si) r c k hk
  · intro r c hr0 hr1 hc0 hc1 hne res2 hyper'' heq2 habs
    have h1' : pyIndex (hyper'.wavelength_data.map truncQ) stop = some si := by
      rw [hh']; exact h1
    have h2' : pyIndex (hyper'.wavelength_data.map truncQ) start = some pi := by
      rw [hh']; exact h2
    have hcd : hyper'.channel_data = hyper.channel_data := by rw [hh']
    have hun2 := hyperslice_some hyper' start stop rows cols h1' h2'
    rw [hcd, hrows, hcols] at hun2
    dsimp only at hun2
    have key2 := heq2.symm.trans hun2
    rw [Option.some.injEq, Prod.mk.injEq] at key2
    obtain ⟨hres2, -⟩ := key2
    have hwi : r - r0 < r1 - r0 := by omega
    have hwj : c - c0 < c1 - c0 := by omega
    have hr' : r0 + (r - r0) = r := by omega
    have hc' : c0 + (c - c0) = c := by omega
    have e1 : (res.getD (r - r0) []).getD (c - c0) 0 =
        hypersliceLoop hyper.hyper_image.val r0 r1 c0 c1 si (pi - si) r c si := by
      rw [hres, planeWindow_getD _ r0 r1 c0 c1 si hwi hwj, hr', hc']
    have e2 : (res2.getD (r - r0) []).getD (c - c0) 0 =
        hypersliceLoop hyper'.hyper_image.val r0 r1 c0 c1 si (pi - si) r c si := by
      rw [hres2, planeWindow_getD _ r0 r1 c0 c1 si hwi hwj, hr', hc']
    rw [habs, e1] at e2
    have tgt1 := hypersliceLoop_target hyper.hyper_image.val r0 r1 c0 c1 si
      (pi - si) r c hr0 hr1 hc0 hc1 hn1
    have tgt2 := hypersliceLoop_target hyper'.hyper_image.val r0 r1 c0 c1 si
      (pi - si) r c hr0 hr1 hc0 hc1 hn1
    have hsum : ((List.range (pi - si - 1)).map
          (fun i => hyper'.hyper_image.val r c (si + 1 + i))).sum =
        ((List.range (pi - si - 1)).map
          (fun i => hyper.hyper_image.val r c (si + 1 + i))).sum := by
      refine congrArg List.sum (List.map_congr_left fun i _ => ?_)
      rw [hv]
      exact hypersliceLoop_off_target _ r0 r1 c0 c1 si (pi - si) r c (si + 1 + i)
        (Or.inl (by omega))
    have hplane : hyper'.hyper_image.val r c si =
        2 * hyper.hyper_image.val r c si +
          ((List.range (pi - si - 1)).map
            (fun i => hyper.hyper_image.val r c (si + 1 + i))).sum := by
      rw [hv]; exact tgt1
    rw [tgt1, tgt2, hsum, hplane] at e2
    apply hne
    linarith [e2]

/-- C2, counterexample to the claim as stated: on the all-zero
container `hyperB` the resolved span is positive (`index(10) = 1`
minus `index(20) = 0`), yet the cube IS left unchanged (the written
sums equal the old zeros) and a second identical call returns the very
same result `[[0]]`. -/
theorem C2_counterexample :
    pyIndex (hyperB.wavelength_data.map truncQ) 20 = some 0 ∧
    pyIndex (hyperB.wavelength_data.map truncQ) 10 = some 1 ∧
    hyperB.hyper_image.val 0 0 0 = 0 ∧
    hyperB.hyper_image.val 0 0 1 = 0 ∧
    (hyperslice hyperB 10 20 none none).map
        (fun p => (p.1, p.2.hyper_image.val 0 0 0, p.2.hyper_image.val 0 0 1)) =
      some ([[0]], 0, 0) ∧
    ((hyperslice hyperB 10 20 none none).bind
        (fun p => hyperslice p.2 10 20 none none)).map Prod.fst = some [[0]] := by
  refine ⟨by decide, by decide, by decide, by decide, ?_, ?_⟩ <;>
    · simp [hyperslice, hyperB, pyIndex, truncQ, hypersliceLoop, cubeAddPlane,
        planeWindow, cubeOfList, List.range_succ]

/-- C2, witness: on `hyperC` (planes `1` and `5`, axis `[20, 10]`) the
call `hyperslice(c, 10, 20)` has span `1` and rewrites plane `0` of the
cube to twice its original value. -/
theorem C2_witness :
    pyIndex (hyperC.wavelength_data.map truncQ) 20 = some 0 ∧
    pyIndex (hyperC.wavelength_data.map truncQ) 10 = some 1 ∧
    ((0 : ℕ) < 1) ∧
    hyperslice hyperC 10 20 none none =
      some (planeWindow hyperC'.hyper_image.val 0 1 0 1 0, hyperC') ∧
    hyperC'.hyper_image.val 0 0 0 =
      2 * hyperC.hyper_image.val 0 0 0 +
        ((List.range 0).map (fun i => hyperC.hyper_image.val 0 0 (0 + 1 + i))).sum :=
  ⟨by decide, by decide, by decide, rfl,
   (C2_hyperslice_aliasing_mutation hyperC 10 20 none none 0 1 0 1 0 1
      (by decide) (by decide) (by decide) (by decide) (by decide)
      (planeWindow hyperC'.hyper_image.val 0 1 0 1 0) hyperC' rfl).2.1 0 0
      (by decide) (by decide) (by decide) (by decide)⟩

/-! ### Claim C4 -/

/-- C4 (amended): every successful construction with declared pixel
counts `xPixel = X`, `yPixel = Y`, wavelength-axis length `S` and `C`
non-hyperspectral channels exposes `hyper_image` of shape `(Y, X, S)`
and `channel_data` of shape `(Y, X, C)` — the two spatial axes are
TRANSPOSED relative to the claimed `(X, Y, ·)`, because
`np.rot90(·, k=-1)` swaps them (the claimed shape only holds when
`X = Y`). -/
theorem C4_shapes_are_transposed (xPixel yPixel : ℕ) (wl : List ℚ)
    (channels : List RawChannel) (img : HyperImage)
    (h : buildHyperImage xPixel yPixel wl channels = some img) :
    img.hyper_image.shape = (yPixel, xPixel, wl.length) ∧
    img.channel_data.shape = (yPixel, xPixel, channels.length - 1) := by
  cases channels with
  | nil => simp [buildHyperImage] at h
  | cons ch0 rest =>
    rw [buildHyperImage] at h
    split at h
    · rw [Option.some.injEq] at h
      subst h
      simp [flipCols, rot90cw]
    · cases h

/-- C4, counterexample to the claim as stated: a successful build with
`xPixel = 1`, `yPixel = 2`, one wavelength, exposes `hyper_image` of
shape `(2, 1, 1)` — not the claimed `(xPixel, yPixel, S) = (1, 2, 1)`. -/
theorem C4_counterexample :
    (buildHyperImage 1 2 [5] [⟨[], 1, [7, 8]⟩]).map
        (fun im => (im.hyper_image.shape, im.channel_data.shape)) =
      some ((2, 1, 1), (2, 1, 0)) ∧
    ((2, 1, 1) : ℕ × ℕ × ℕ) ≠ (1, 2, 1) := by decide

/-- C4, witness: the amended theorem applied to the concrete successful
build of `builtA`. -/
theorem C4_witness :
    buildHyperImage 1 2 [5] [⟨[], 1, [7, 8]⟩] = some builtA ∧
    builtA.hyper_image.shape = (2, 1, 1) ∧
    builtA.channel_data.shape = (2, 1, 0) :=
  ⟨rfl,
   (C4_shapes_are_transposed 1 2 [5] [⟨[], 1, [7, 8]⟩] builtA rfl).1,
   (C4_shapes_are_transposed 1 2 [5] [⟨[], 1, [7, 8]⟩] builtA rfl).2⟩

/-! ### Lemmas about the raw grid and stack builders -/

lemma foldl_writeCell_eval (i ch : ℕ) (f : ℕ → ℚ) (L : List ℕ)
    (g : ℕ → ℕ → ℕ → ℚ) (a b c : ℕ) :
    (L.foldl (fun g j => writeCell g j i ch (f j)) g) a b c =
      if a ∈ L ∧ b = i ∧ c = ch then f a else g a b c := by
  induction L generalizing g with
  | nil => simp
  | cons x xs ih =>
    rw [List.foldl_cons, ih]
    by_cases hmem : a ∈ xs ∧ b = i ∧ c = ch
    · rw [if_pos hmem, if_pos ⟨List.mem_cons_of_mem x hmem.1, hmem.2⟩]
    · rw [if_neg hmem]
      simp only [writeCell]
      by_cases hax : a = x ∧ b = i ∧ c = ch
      · rw [if_pos hax,
          if_pos ⟨by rw [hax.1]; exact List.mem_cons_self x xs, hax.2⟩, hax.1]
      · rw [if_neg hax, if_neg ?hfull]
        case hfull =>
          rintro ⟨hm, hrest⟩
          rcases List.mem_cons.mp hm with rfl | hm'
          · exact hax ⟨rfl, hrest⟩
          · exact hmem ⟨hm', hrest⟩

lemma fillCellRow_eval (X ch : ℕ) (scale : ℚ) (data : List ℤ) (i : ℕ)
    (g : ℕ → ℕ → ℕ → ℚ) (a b c : ℕ) :
    fillCellRow X ch scale data i g a b c =
      if a < X ∧ b = i ∧ c = ch then
        scale * ((data.getD (i * X + a) 0 : ℤ) : ℚ)
      else g a b c := by
  have h := foldl_writeCell_eval i ch
    (fun j => scale * ((data.getD (i * X + j) 0 : ℤ) : ℚ)) (List.range X) g a b c
  simp only [List.mem_range] at h
  exact h

lemma foldl_fillCellRow_eval (X ch : ℕ) (scale : ℚ) (data : List ℤ)
    (L : List ℕ) (g : ℕ → ℕ → ℕ → ℚ) (a b c : ℕ) :
    (L.foldl (fun g i => fillCellRow X ch scale data i g) g) a b c =
      if a < X ∧ b ∈ L ∧ c = ch then
        scale * ((data.getD (b * X + a) 0 : ℤ) : ℚ)
      else g a b c := by
  induction L generalizing g with
  | nil => simp
  | cons x xs ih =>
    rw [List.foldl_cons, ih]
    by_cases hmem : a < X ∧ b ∈ xs ∧ c = ch
    · rw [if_pos hmem, if_pos ⟨hmem.1, List.mem_cons_of_mem x hmem.2.1, hmem.2.2⟩]
    · rw [if_neg hmem, fillCellRow_eval]
      by_cases hbx : a < X ∧ b = x ∧ c = ch
      · rw [if_pos hbx,
          if_pos ⟨hbx.1, by rw [hbx.2.1]; exact List.mem_cons_self x xs, hbx.2.2⟩,
          hbx.2.1]
      · rw [if_neg hbx, if_neg ?hfull]
        case hfull =>
          rintro ⟨h1, hm, h3⟩
          rcases List.mem_cons.mp hm with rfl | hm'
          · exact hbx ⟨h1, rfl, h3⟩
          · exact hmem ⟨h1, hm', h3⟩

lemma fillChannel_eval (X Y : ℕ) (g : ℕ → ℕ → ℕ → ℚ) (ch : ℕ) (scale : ℚ)
    (data : List ℤ) (a b c : ℕ) :
    fillChannel X Y g ch scale data a b c =
      if a < X ∧ b < Y ∧ c = ch then
        scale * ((data.getD (b * X + a) 0 : ℤ) : ℚ)
      else g a b c := by
  have h := foldl_fillCellRow_eval X ch scale data (List.range Y) g a b c
  simp only [List.mem_range] at h
  exact h

/-- Channel writes beyond the enumerated index range leave a cell
untouched. -/
lemma stackFrom_preserve (X Y : ℕ) (chans : List RawChannel) :
    ∀ (g : ℕ → ℕ → ℕ → ℚ) (ch0 a b c : ℕ),
      (X ≤ a ∨ Y ≤ b ∨ c < ch0 ∨ ch0 + chans.length ≤ c) →
      stackFrom X Y g ch0 chans a b c = g a b c := by
  induction chans with
  | nil => intro g ch0 a b c _; rfl
  | cons cc rest ih =>
    intro g ch0 a b c h
    have h' : X ≤ a ∨ Y ≤ b ∨ c < ch0 + 1 ∨ ch0 + 1 + rest.length ≤ c := by
      rcases h with h | h | h | h
      · exact Or.inl h
      · exact Or.inr (Or.inl h)
      · exact Or.inr (Or.inr (Or.inl (by omega)))
      · refine Or.inr (Or.inr (Or.inr ?_))
        simp only [List.length_cons] at h
        omega
    rw [stackFrom, ih _ _ _ _ _ h', fillChannel_eval, if_neg ?hno]
    case hno =>
      rintro ⟨h1, h2, rfl⟩
      rcases h with h | h | h | h
      · omega
      · omega
      · omega
      · simp only [List.length_cons] at h
        omega

/-- Value written for the `j`-th enumerated channel. -/
lemma stackFrom_value (X Y : ℕ) (chans : List RawChannel) :
    ∀ (g : ℕ → ℕ → ℕ → ℚ) (ch0 j a b : ℕ) (cc : RawChannel),
      chans[j]? = some cc → a < X → b < Y →
      stackFrom X Y g ch0 chans a b (ch0 + j) =
        cc.scale * ((cc.data.getD (b * X + a) 0 : ℤ) : ℚ) := by
  induction chans with
  | nil => intro g ch0 j a b cc hj _ _; simp at hj
  | cons c0 rest ih =>
    intro g ch0 j a b cc hj ha hb
    cases j with
    | zero =>
      rw [List.getElem?_cons_zero, Option.some.injEq] at hj
      subst hj
      rw [stackFrom, stackFrom_preserve X Y rest _ (ch0 + 1) a b (ch0 + 0)
          (Or.inr (Or.inr (Or.inl (by omega)))),
        fillChannel_eval, if_pos ⟨ha, hb, by omega⟩]
    | succ j' =>
      rw [List.getElem?_cons_succ] at hj
      have := ih (fillChannel X Y g ch0 c0.scale c0.data) (ch0 + 1) j' a b cc hj ha hb
      rw [stackFrom]
      rw [show ch0 + (j' + 1) = ch0 + 1 + j' by omega]
      exact this

lemma foldl_writeFiber_eval (i S : ℕ) (f : ℕ → ℕ → ℚ) (L : List ℕ)
    (g : ℕ → ℕ → ℕ → ℚ) (a b k : ℕ) :
    (L.foldl (fun g j => writeFiber g j i S (f j)) g) a b k =
      if a ∈ L ∧ b = i ∧ k < S then f a k else g a b k := by
  induction L generalizing g with
  | nil => simp
  | cons x xs ih =>
    rw [List.foldl_cons, ih]
    by_cases hmem : a ∈ xs ∧ b = i ∧ k < S
    · rw [if_pos hmem, if_pos ⟨List.mem_cons_of_mem x hmem.1, hmem.2⟩]
    · rw [if_neg hmem]
      simp only [writeFiber]
      by_cases hax : a = x ∧ b = i ∧ k < S
      · rw [if_pos hax,
          if_pos ⟨by rw [hax.1]; exact List.mem_cons_self x xs, hax.2⟩, hax.1]
      · rw [if_neg hax, if_neg ?hfull]
        case hfull =>
          rintro ⟨hm, hrest⟩
          rcases List.mem_cons.mp hm with rfl | hm'
          · exact hax ⟨rfl, hrest⟩
          · exact hmem ⟨hm', hrest⟩

lemma fillFiberRow_eval (X S : ℕ) (scale : ℚ) (data : List ℤ) (i : ℕ)
    (g : ℕ → ℕ → ℕ → ℚ) (a b k : ℕ) :
    fillFiberRow X S scale data i g a b k =
      if a < X ∧ b = i ∧ k < S then
        scale * ((data.getD ((i * X + a) * S + k) 0 : ℤ) : ℚ)
      else g a b k := by
  have h := foldl_writeFiber_eval i S
    (fun j k => scale * ((data.getD ((i * X + j) * S + k) 0 : ℤ) : ℚ))
    (List.range X) g a b k
  simp only [List.mem_range] at h
  exact h

lemma foldl_fillFiberRow_eval (X S : ℕ) (scale : ℚ) (data : List ℤ)
    (L : List ℕ) (g : ℕ → ℕ → ℕ → ℚ) (a b k : ℕ) :
    (L.foldl (fun g i => fillFiberRow X S scale data i g) g) a b k =
      if a < X ∧ b ∈ L ∧ k < S then
        scale * ((data.getD ((b * X + a) * S + k) 0 : ℤ) : ℚ)
      else g a b k := by
  induction L generalizing g with
  | nil => simp
  | cons x xs ih =>
    rw [List.foldl_cons, ih]
    by_cases hmem : a < X ∧ b ∈ xs ∧ k < S
    · rw [if_pos hmem, if_pos ⟨hmem.1, List.mem_cons_of_mem x hmem.2.1, hmem.2.2⟩]
    · rw [if_neg hmem, fillFiberRow_eval]
      by_cases hbx : a < X ∧ b = x ∧ k < S
      · rw [if_pos hbx,
          if_pos ⟨hbx.1, by rw [hbx.2.1]; exact List.mem_cons_self x xs, hbx.2.2⟩,
          hbx.2.1]
      · rw [if_neg hbx, if_neg ?hfull]
        case hfull =>
          rintro ⟨h1, hm, h3⟩
          rcases List.mem_cons.mp hm with rfl | hm'
          · exact hbx ⟨h1, rfl, h3⟩
          · exact hmem ⟨h1, hm', h3⟩

lemma fillGridFun_eval (X Y S : ℕ) (scale : ℚ) (data : List ℤ) (a b k : ℕ) :
    fillGridFun X Y S scale data a b k =
      if a < X ∧ b < Y ∧ k < S then
        scale * ((data.getD ((b * X + a) * S + k) 0 : ℤ) : ℚ)
      else 0 := by
  have h := foldl_fillFiberRow_eval X S scale data (List.range Y)
    (fun _ _ _ => 0) a b k
  simp only [List.mem_range] at h
  exact h

/-! ### Claim C8 -/

/-- C8: before orientation normalization, both the hyperspectral grid
and every channel grid are built transposed relative to the natural
read order: the sample at binary row `y`, column `x` (and spectral
offset `k` for the hyperspectral payload) lands, scaled, at grid
address `[x, y]`. -/
theorem C8_raw_grid_transposed (X Y S : ℕ) (scale : ℚ) (data : List ℤ)
    (x y : ℕ) (hx : x < X) (hy : y < Y) :
    (∀ k, k < S →
      fillGridFun X Y S scale data x y k =
        scale * ((data.getD ((y * X + x) * S + k) 0 : ℤ) : ℚ)) ∧
    (∀ (chans : List RawChannel) (ch : ℕ) (cc : RawChannel),
      chans[ch]? = some cc →
      stackFun X Y chans x y ch =
        cc.scale * ((cc.data.getD (y * X + x) 0 : ℤ) : ℚ)) := by
  constructor
  · intro k hk
    rw [fillGridFun_eval, if_pos ⟨hx, hy, hk⟩]
  · intro chans ch cc hcc
    have h := stackFrom_value X Y chans (fun _ _ _ => 0) 0 ch x y cc hcc hx hy
    rw [stackFun]
    rw [show ch = 0 + ch by omega]
    exact h

/-- C8, witness: a 2×2 channel payload `[1, 2, 3, 4]` with scale `3`:
the sample of binary row `0`, column `1` lands at grid address
`[1, 0]`, both for the hyperspectral grid (one plane) and for the
channel stack. -/
theorem C8_witness :
    ((1 : ℕ) < 2) ∧ ((0 : ℕ) < 2) ∧
    fillGridFun 2 2 1 3 [1, 2, 3, 4] 1 0 0 =
      3 * ((([1, 2, 3, 4] : List ℤ).getD ((0 * 2 + 1) * 1 + 0) 0 : ℤ) : ℚ) ∧
    stackFun 2 2 [⟨"c".toList, 3, [1, 2, 3, 4]⟩] 1 0 0 =
      (⟨"c".toList, 3, [1, 2, 3, 4]⟩ : RawChannel).scale *
        ((((⟨"c".toList, 3, [1, 2, 3, 4]⟩ : RawChannel).data.getD (0 * 2 + 1) 0 : ℤ)) : ℚ) :=
  ⟨by decide, by decide,
   (C8_raw_grid_transposed 2 2 1 3 [1, 2, 3, 4] 1 0 (by decide) (by decide)).1
     0 (by decide),
   (C8_raw_grid_transposed 2 2 1 3 [1, 2, 3, 4] 1 0 (by decide) (by decide)).2
     [⟨"c".toList, 3, [1, 2, 3, 4]⟩] 0 ⟨"c".toList, 3, [1, 2, 3, 4]⟩ rfl⟩

/-! ### Lemmas about `to_2d` -/

lemma foldl_set_const (S n : ℕ) (v : List ℚ) (fm : List (List ℚ)) :
    (List.range S).foldl (fun fm _z => fm.set n v) fm =
      if S = 0 then fm else fm.set n v := by
  induction S with
  | zero => rfl
  | succ S ih =>
    rw [List.range_succ, List.foldl_append, ih, List.foldl_cons, List.foldl_nil]
    rcases Nat.eq_zero_or_pos S with rfl | hS
    · rw [if_pos rfl, if_neg (by omega)]
    · rw [if_neg (by omega), if_neg (by omega), List.set_set]

lemma to2dStep_eval (m : Arr3) (lp : ℚ) (x : ℕ) (st : ℤ × List (List ℚ))
    (y : ℕ) :
    to2dStep m lp x st y =
      (st.1 + 1,
       if m.shape.2.2 = 0 then st.2
       else st.2.set (st.1 + 1).toNat
         ((List.range m.shape.2.2).map fun z => m.val x y z / lp)) := by
  rw [to2dStep, foldl_set_const]

/-- Running the inner `for y` loop of `to_2d` from counter `b - 1`
writes rows `b, …, b+n-1` with the spectral vectors of `(x, 0 …
n-1)`, leaves the rest, and ends with counter `b + n - 1`. -/
lemma to2dStep_foldl (m : Arr3) (lp : ℚ) (x : ℕ) :
    ∀ (n b : ℕ) (fm : List (List ℚ)), b + n ≤ fm.length →
      (((List.range n).foldl (to2dStep m lp x) (((b : ℤ) - 1), fm)).1 =
          ((b + n : ℕ) : ℤ) - 1) ∧
      (((List.range n).foldl (to2dStep m lp x) (((b : ℤ) - 1), fm)).2.length =
          fm.length) ∧
      (∀ idx,
        ((List.range n).foldl (to2dStep m lp x) (((b : ℤ) - 1), fm)).2.getD idx [] =
          if m.shape.2.2 ≠ 0 ∧ b ≤ idx ∧ idx < b + n then
            (List.range m.shape.2.2).map fun z => m.val x (idx - b) z / lp
          else fm.getD idx []) := by
  intro n
  induction n with
  | zero =>
    intro b fm _
    refine ⟨by simp, rfl, fun idx => ?_⟩
    rw [if_neg (by rintro ⟨-, h1, h2⟩; omega)]
    rfl
  | succ n ih =>
    intro b fm hlen
    obtain ⟨ih1, ih2, ih3⟩ := ih b fm (by omega)
    rw [List.range_succ, List.foldl_append, List.foldl_cons, List.foldl_nil,
      to2dStep_eval]
    dsimp only
    have hc : ((List.range n).foldl (to2dStep m lp x) (((b : ℤ) - 1), fm)).1 + 1 =
        ((b + n : ℕ) : ℤ) := by
      rw [ih1]; push_cast; ring
    refine ⟨?_, ?_, ?_⟩
    · rw [hc]; push_cast; ring
    · split
      · exact ih2
      · rw [List.length_set]; exact ih2
    · intro idx
      rcases eq_or_ne m.shape.2.2 0 with hS | hS
      · rw [if_pos hS, ih3 idx,
          if_neg (by rintro ⟨a1, -, -⟩; exact a1 hS),
          if_neg (by rintro ⟨a1, -, -⟩; exact a1 hS)]
      · rw [if_neg hS]
        have htn : (((List.range n).foldl (to2dStep m lp x) (((b : ℤ) - 1), fm)).1
            + 1).toNat = b + n := by
          rw [hc]; exact Int.toNat_ofNat _
        rw [htn, List.getD_eq_getElem?_getD, List.getElem?_set]
        rcases eq_or_ne (b + n) idx with heq | hne
        · rw [if_pos heq, if_pos (by rw [ih2]; omega), Option.getD_some,
            if_pos ⟨hS, by omega, by omega⟩,
            show idx - b = n from by omega]
        · rw [if_neg hne, ← List.getD_eq_getElem?_getD, ih3 idx]
          by_cases hin : m.shape.2.2 ≠ 0 ∧ b ≤ idx ∧ idx < b + n
          · rw [if_pos hin, if_pos ⟨hin.1, hin.2.1, by omega⟩]
          · rw [if_neg hin,
              if_neg (by rintro ⟨a1, a2, a3⟩; exact hin ⟨a1, a2, by omega⟩)]

/-- Running the full double loop of `to_2d` over a zero matrix fills
row `idx` (for `idx < n·Y`) with the spectral vector of spatial cell
`(idx / Y, idx % Y)` — row-major order over `(x, y)`. -/
lemma to2d_outer_eval (m : Arr3) (lp : ℚ) :
    ∀ (n : ℕ) (fm : List (List ℚ)), n * m.shape.2.1 ≤ fm.length →
      (((List.range n).foldl
          (fun st x => (List.range m.shape.2.1).foldl (to2dStep m lp x) st)
          ((-1 : ℤ), fm)).1 = ((n * m.shape.2.1 : ℕ) : ℤ) - 1) ∧
      (((List.range n).foldl
          (fun st x => (List.range m.shape.2.1).foldl (to2dStep m lp x) st)
          ((-1 : ℤ), fm)).2.length = fm.length) ∧
      (∀ idx,
        ((List.range n).foldl
          (fun st x => (List.range m.shape.2.1).foldl (to2dStep m lp x) st)
          ((-1 : ℤ), fm)).2.getD idx [] =
          if m.shape.2.2 ≠ 0 ∧ idx < n * m.shape.2.1 then
            (List.range m.shape.2.2).map fun z =>
              m.val (idx / m.shape.2.1) (idx % m.shape.2.1) z / lp
          else fm.getD idx []) := by
  intro n
  induction n with
  | zero =>
    intro fm _
    refine ⟨by simp, rfl, fun idx => ?_⟩
    rw [if_neg (by rintro ⟨-, h⟩; rw [Nat.zero_mul] at h; omega)]
    rfl
  | succ n ih =>
    intro fm hlen
    rw [Nat.succ_mul] at hlen
    obtain ⟨ih1, ih2, ih3⟩ := ih fm (by omega)
    rw [List.range_succ, List.foldl_append, List.foldl_cons, List.foldl_nil]
    set prev := (List.range n).foldl
      (fun st x => (List.range m.shape.2.1).foldl (to2dStep m lp x) st)
      ((-1 : ℤ), fm) with hprev
    have hsplit : prev = (((n * m.shape.2.1 : ℕ) : ℤ) - 1, prev.2) :=
      Prod.ext ih1 rfl
    rw [hsplit]
    obtain ⟨j1, j2, j3⟩ := to2dStep_foldl m lp n m.shape.2.1
      (n * m.shape.2.1) prev.2 (by rw [ih2]; omega)
    refine ⟨?_, ?_, ?_⟩
    · rw [j1, Nat.succ_mul]
    · rw [j2, ih2]
    · intro idx
      rw [j3 idx]
      rcases eq_or_ne m.shape.2.2 0 with hS | hS
      · rw [if_neg (by rintro ⟨a1, -⟩; exact a1 hS), ih3 idx,
          if_neg (by rintro ⟨a1, -⟩; exact a1 hS),
          if_neg (by rintro ⟨a1, -⟩; exact a1 hS)]
      · by_cases hlow : n * m.shape.2.1 ≤ idx ∧
            idx < n * m.shape.2.1 + m.shape.2.1
        · have hYpos : 0 < m.shape.2.1 := by
            by_contra h0
            have h0' : m.shape.2.1 = 0 := by omega
            rw [h0', Nat.mul_zero] at hlow
            omega
          have hr : idx - n * m.shape.2.1 < m.shape.2.1 := by omega
          have hidx : idx = m.shape.2.1 * n + (idx - n * m.shape.2.1) := by
            rw [Nat.mul_comm]; omega
          have hdiv : idx / m.shape.2.1 = n := by
            conv_lhs => rw [hidx]
            rw [Nat.mul_add_div hYpos, Nat.div_eq_of_lt hr]
            omega
          have hmod : idx % m.shape.2.1 = idx - n * m.shape.2.1 := by
            conv_lhs => rw [hidx]
            rw [Nat.mul_add_mod, Nat.mod_eq_of_lt hr]
          rw [if_pos ⟨hS, hlow.1, hlow.2⟩,
            if_pos ⟨hS, by rw [Nat.succ_mul]; omega⟩, hdiv, hmod]
        · rw [if_neg (by rintro ⟨-, a2, a3⟩; exact hlow ⟨a2, a3⟩), ih3 idx]
          by_cases hin : idx < n * m.shape.2.1
          · rw [if_pos ⟨hS, hin⟩,
              if_pos ⟨hS, by rw [Nat.succ_mul]; omega⟩]
          · rw [if_neg (by rintro ⟨-, a⟩; exact hin a),
              if_neg ?hend]
            case hend =>
              rintro ⟨-, a⟩
              rw [Nat.succ_mul] at a
              exact hlow ⟨by omega, a⟩

/-! ### Claim C10 -/

/-- C10: `to_2d` on a cube of shape `(X, Y, S)` returns an `(X·Y, S)`
matrix in which row `x·Y + y` (row-major over `(x, y)`) is the
spectral vector at cell `(x, y)` divided elementwise by the laser
power. -/
theorem C10_to_2d_rows (m : Arr3) (lp : ℚ) (_hlp : lp ≠ 0) (x y : ℕ)
    (hx : x < m.shape.1) (hy : y < m.shape.2.1) :
    (to_2d m lp).length = m.shape.1 * m.shape.2.1 ∧
    (∀ idx, idx < m.shape.1 * m.shape.2.1 →
      ((to_2d m lp).getD idx []).length = m.shape.2.2) ∧
    (to_2d m lp).getD (x * m.shape.2.1 + y) [] =
      (List.range m.shape.2.2).map fun z => m.val x y z / lp := by
  have hdef : to_2d m lp =
      ((List.range m.shape.1).foldl
        (fun st x => (List.range m.shape.2.1).foldl (to2dStep m lp x) st)
        ((-1 : ℤ),
         List.replicate (m.shape.1 * m.shape.2.1)
           (List.replicate m.shape.2.2 (0 : ℚ)))).2 := rfl
  obtain ⟨h1, h2, h3⟩ := to2d_outer_eval m lp m.shape.1
    (List.replicate (m.shape.1 * m.shape.2.1) (List.replicate m.shape.2.2 (0 : ℚ)))
    (by rw [List.length_replicate])
  have hxy : x * m.shape.2.1 + y < m.shape.1 * m.shape.2.1 := by
    have hstep : (x + 1) * m.shape.2.1 ≤ m.shape.1 * m.shape.2.1 :=
      Nat.mul_le_mul_right _ (by omega)
    rw [Nat.succ_mul] at hstep
    omega
  have hrepl : ∀ idx, idx < m.shape.1 * m.shape.2.1 →
      (List.replicate (m.shape.1 * m.shape.2.1)
        (List.replicate m.shape.2.2 (0 : ℚ))).getD idx [] =
      List.replicate m.shape.2.2 (0 : ℚ) := by
    intro idx hidx
    rw [List.getD_eq_getElem?_getD, List.getElem?_replicate, if_pos hidx,
      Option.getD_some]
  refine ⟨?_, ?_, ?_⟩
  · rw [hdef, h2, List.length_replicate]
  · intro idx hidx
    rw [hdef, h3 idx]
    by_cases hc : m.shape.2.2 ≠ 0 ∧ idx < m.shape.1 * m.shape.2.1
    · rw [if_pos hc, List.length_map, List.length_range]
    · rw [if_neg hc, hrepl idx hidx, List.length_replicate]
  · rw [hdef, h3 (x * m.shape.2.1 + y)]
    rcases eq_or_ne m.shape.2.2 0 with hS | hS
    · rw [if_neg (by rintro ⟨a1, -⟩; exact a1 hS), hrepl _ hxy, hS]
      rw [List.replicate_zero, List.range_zero, List.map_nil]
    · rw [if_pos ⟨hS, hxy⟩]
      have hdiv : (x * m.shape.2.1 + y) / m.shape.2.1 = x := by
        rw [Nat.mul_comm x m.shape.2.1, Nat.mul_add_div (by omega),
          Nat.div_eq_of_lt hy]
        omega
      have hmod : (x * m.shape.2.1 + y) % m.shape.2.1 = y := by
        rw [Nat.mul_comm x m.shape.2.1, Nat.mul_add_mod, Nat.mod_eq_of_lt hy]
      rw [hdiv, hmod]

/-- C10, witness: the theorem applied to a concrete `(2, 2, 3)` cube
with laser power `2`, at cell `(1, 0)` (matrix row `2`). -/
theorem C10_witness :
    ((2 : ℚ) ≠ 0) ∧ ((1 : ℕ) < 2) ∧ ((0 : ℕ) < 2) ∧
    (to_2d cubeD 2).getD (1 * cubeD.shape.2.1 + 0) [] =
      (List.range cubeD.shape.2.2).map fun z => cubeD.val 1 0 z / 2 :=
  ⟨by norm_num, by decide, by decide,
   (C10_to_2d_rows cubeD 2 (by norm_num) 1 0 (by decide) (by decide)).2.2⟩

end PiFM
